import Mathlib

/-!
Shallow embedding of `src/proof/permutations.c`: four uint64 bit-manipulation
primitives (`is_power_of_two`, `reverse_bits`, `log2_pow2`,
`reverse_bits_limited`).  Machine integers are modelled as `Nat`; wrap-around
is made explicit with `% 2 ^ 64` exactly where the C semantics perform it.
-/

namespace Permutations

/-- C: `bool is_power_of_two(uint64_t n) { return (n & (n - 1)) == 0; }`.
The uint64 subtraction `n - 1` wraps modulo `2^64`, which on `Nat` is
`(n + 2^64 - 1) % 2^64`. -/
def is_power_of_two (n : Nat) : Bool :=
  (n &&& ((n + 2 ^ 64 - 1) % 2 ^ 64)) == 0

/-- The body of the `for` loop of `reverse_bits`, iterated `fuel` times on the
state `(result, n)`:
`result <<= 1; result |= (n & 1); n >>= 1;`
(the shift of `result` is uint64 arithmetic, hence the `% 2 ^ 64`). -/
def reverse_bits_loop : Nat → Nat × Nat → Nat × Nat
  | 0, p => p
  | fuel + 1, (result, n) =>
      reverse_bits_loop fuel (((result <<< 1) % 2 ^ 64) ||| (n &&& 1), n >>> 1)

/-- C: `uint64_t reverse_bits(uint64_t n)`: 64 iterations of the loop body
starting from `result = 0`. -/
def reverse_bits (n : Nat) : Nat :=
  (reverse_bits_loop 64 (0, n)).1

/-- C: `uint64_t log2_pow2(uint64_t n) { position = 0; while (n >>= 1) position++; }`:
each iteration halves `n` and, while the halved value is nonzero, increments
`position`. -/
def log2_pow2 (n : Nat) : Nat :=
  if n >>> 1 = 0 then 0 else log2_pow2 (n >>> 1) + 1
termination_by n
decreasing_by
  rename_i h
  rw [Nat.shiftRight_succ, Nat.shiftRight_zero] at *
  omega

/-- C: `uint64_t reverse_bits_limited(uint64_t n, uint64_t value)`:
`size_t unused_bit_len = 64 - log2_pow2(n); return reverse_bits(value) >> unused_bit_len;` -/
def reverse_bits_limited (n value : Nat) : Nat :=
  reverse_bits value >>> (64 - log2_pow2 n)

/-- Mathematical reversal of the low `k` bits of `m`: bit `i` of `m` (for
`i < k`) becomes bit `k - 1 - i` of the result. -/
def rev : Nat → Nat → Nat
  | 0, _ => 0
  | k + 1, m => m % 2 * 2 ^ k + rev k (m / 2)

theorem rev_lt (k m : Nat) : rev k m < 2 ^ k := by
  induction k generalizing m with
  | zero => simp [rev]
  | succ k ih =>
    have h := ih (m / 2)
    have hm : m % 2 ≤ 1 := by omega
    have : (2 : Nat) ^ (k + 1) = 2 ^ k + 2 ^ k := by rw [Nat.pow_succ]; omega
    simp only [rev]
    nlinarith [Nat.pos_pow_of_pos k (show 0 < 2 by omega)]

/-- Peeling the top bit instead of the bottom one:
`rev (k+1) m = 2 * rev k m + bit k of m`. -/
theorem rev_succ_top (k m : Nat) : rev (k + 1) m = 2 * rev k m + m / 2 ^ k % 2 := by
  induction k generalizing m with
  | zero => simp [rev]
  | succ k ih =>
    have h := ih (m / 2)
    simp only [rev] at h ⊢
    rw [h]
    have hdiv : m / 2 / 2 ^ k = m / 2 ^ (k + 1) := by
      rw [Nat.div_div_eq_div_mul, Nat.pow_succ, Nat.mul_comm 2 (2 ^ k), Nat.mul_comm (2 ^ k) 2]
    rw [hdiv, Nat.pow_succ]
    ring

/-- `rev k` only reads the low `k` bits of its argument. -/
theorem rev_mod (k m : Nat) : rev k (m % 2 ^ k) = rev k m := by
  induction k generalizing m with
  | zero => simp [rev]
  | succ k ih =>
    simp only [rev]
    have h2 : (2 : Nat) ∣ 2 ^ (k + 1) := Dvd.intro_left (2 ^ k) (by rw [Nat.pow_succ])
    have hmod : m % 2 ^ (k + 1) % 2 = m % 2 := Nat.mod_mod_of_dvd m h2
    have hdiv : m % 2 ^ (k + 1) / 2 = m / 2 % 2 ^ k := by
      rw [Nat.pow_succ', Nat.mod_mul_right_div_self]
    rw [hmod, hdiv, ih]

theorem rev_rev (k m : Nat) : rev k (rev k m) = m % 2 ^ k := by
  induction k generalizing m with
  | zero => simp [rev, Nat.mod_one]
  | succ k ih =>
    have hx : rev k (m / 2) < 2 ^ k := rev_lt k (m / 2)
    have hb : m % 2 < 2 := Nat.mod_lt m (by omega)
    rw [show rev (k + 1) m = m % 2 * 2 ^ k + rev k (m / 2) from rfl, rev_succ_top]
    have hmod : (m % 2 * 2 ^ k + rev k (m / 2)) % 2 ^ k = rev k (m / 2) := by
      rw [Nat.mul_comm, Nat.mul_add_mod, Nat.mod_eq_of_lt hx]
    have hdiv : (m % 2 * 2 ^ k + rev k (m / 2)) / 2 ^ k = m % 2 := by
      rw [Nat.mul_comm, Nat.mul_add_div (Nat.pos_pow_of_pos k (by omega)),
        Nat.div_eq_of_lt hx]
      omega
    rw [← rev_mod k (m % 2 * 2 ^ k + rev k (m / 2)), hmod, hdiv, ih]
    have h1 : m % 2 ^ (k + 1) % 2 = m % 2 := Nat.mod_mod_of_dvd m
      (Dvd.intro_left (2 ^ k) (by rw [Nat.pow_succ]))
    have h2 : m % 2 ^ (k + 1) / 2 = m / 2 % 2 ^ k := by
      rw [Nat.pow_succ', Nat.mod_mul_right_div_self]
    have h3 : m % 2 ^ (k + 1) < 2 ^ (k + 1) :=
      Nat.mod_lt m (Nat.pos_pow_of_pos (k + 1) (by omega))
    omega

theorem rev_zero (k : Nat) : rev k 0 = 0 := by
  induction k with
  | zero => rfl
  | succ k ih => simp [rev, ih]

theorem rev_all_ones (k : Nat) : rev k (2 ^ k - 1) = 2 ^ k - 1 := by
  induction k with
  | zero => rfl
  | succ k ih =>
    have hpos : 0 < 2 ^ k := Nat.pos_pow_of_pos k (by omega)
    have e : 2 ^ (k + 1) = 2 ^ k * 2 := by rw [Nat.pow_succ]
    have hmod : (2 ^ (k + 1) - 1) % 2 = 1 := by omega
    have hdiv : (2 ^ (k + 1) - 1) / 2 = 2 ^ k - 1 := by omega
    simp only [rev]
    rw [hmod, hdiv, ih]
    omega

theorem rev_shift (j k v : Nat) (h : j ≤ k) : rev k v >>> (k - j) = rev j v := by
  induction k with
  | zero =>
    have hj : j = 0 := by omega
    subst hj
    rfl
  | succ k ih =>
    rcases Nat.eq_or_lt_of_le h with heq | hlt
    · subst heq
      simp
    · have hj : j ≤ k := by omega
      have hk : k + 1 - j = (k - j) + 1 := by omega
      rw [hk, Nat.shiftRight_succ_inside, rev_succ_top]
      have hd : (2 * rev k v + v / 2 ^ k % 2) / 2 = rev k v := by omega
      rw [hd, ih hj]

theorem rev_testBit (k m i : Nat) (h : i < k) :
    (rev k m).testBit i = m.testBit (k - 1 - i) := by
  induction k generalizing i with
  | zero => omega
  | succ k ih =>
    rw [rev_succ_top]
    cases i with
    | zero =>
      rw [Nat.testBit_zero]
      have hm : (2 * rev k m + m / 2 ^ k % 2) % 2 = m / 2 ^ k % 2 := by omega
      rw [hm, Nat.testBit_to_div_mod]
      simp
    | succ i =>
      rw [Nat.testBit_succ]
      have hd : (2 * rev k m + m / 2 ^ k % 2) / 2 = rev k m := by omega
      rw [hd, ih i (by omega)]
      congr 1
      omega

theorem lor_of_even (a b : Nat) (ha : a % 2 = 0) (hb : b < 2) : a ||| b = a + b := by
  interval_cases b
  · simp
  · apply Nat.eq_of_testBit_eq
    intro i
    rw [Nat.testBit_or]
    cases i with
    | zero =>
      simp only [Nat.testBit_zero]
      have h1 : (a + 1) % 2 = 1 := by omega
      simp [ha, h1]
    | succ i =>
      simp only [Nat.testBit_succ]
      have h1 : (1 : Nat) / 2 = 0 := by norm_num
      have h2 : (a + 1) / 2 = a / 2 := by omega
      rw [h1, h2]
      simp

theorem reverse_bits_loop_spec (k r m : Nat) (hr : r < 2 ^ 64) :
    (reverse_bits_loop k (r, m)).1 = (2 ^ k * r + rev k m) % 2 ^ 64 := by
  induction k generalizing r m with
  | zero =>
    simp only [reverse_bits_loop, rev, Nat.pow_zero, Nat.one_mul, Nat.add_zero]
    exact (Nat.mod_eq_of_lt hr).symm
  | succ k ih =>
    have hstep : reverse_bits_loop (k + 1) (r, m)
        = reverse_bits_loop k (((r <<< 1) % 2 ^ 64) ||| (m &&& 1), m >>> 1) := rfl
    have he : ((r <<< 1) % 2 ^ 64) ||| (m &&& 1) = r * 2 % 2 ^ 64 + m % 2 := by
      rw [Nat.shiftLeft_eq, Nat.and_one_is_mod, pow_one]
      refine lor_of_even _ _ ?_ (by omega)
      rw [Nat.mod_mod_of_dvd _ (by norm_num : (2 : Nat) ∣ 2 ^ 64)]
      omega
    have hr1 : r * 2 % 2 ^ 64 + m % 2 < 2 ^ 64 := by
      have h1 : r * 2 % 2 ^ 64 % 2 = 0 := by
        rw [Nat.mod_mod_of_dvd _ (by norm_num : (2 : Nat) ∣ 2 ^ 64)]
        omega
      have h2 : r * 2 % 2 ^ 64 < 2 ^ 64 := Nat.mod_lt _ (by norm_num)
      omega
    have hs : m >>> 1 = m / 2 := by rw [Nat.shiftRight_eq_div_pow, pow_one]
    rw [hstep, he, hs, ih _ _ hr1]
    have h1 : (r * 2 % 2 ^ 64 + m % 2) ≡ (r * 2 + m % 2) [MOD 2 ^ 64] :=
      Nat.ModEq.add_right _ (Nat.mod_modEq _ _)
    have h2 := Nat.ModEq.add_right (rev k (m / 2)) (Nat.ModEq.mul_left (2 ^ k) h1)
    have h3 : 2 ^ k * (r * 2 + m % 2) + rev k (m / 2)
        = 2 ^ (k + 1) * r + rev (k + 1) m := by
      simp only [rev]
      ring
    rw [h3] at h2
    exact h2

theorem reverse_bits_eq_rev (n : Nat) : reverse_bits n = rev 64 n := by
  have h := reverse_bits_loop_spec 64 0 n (by norm_num)
  rw [reverse_bits, h, Nat.mul_zero, Nat.zero_add, Nat.mod_eq_of_lt (rev_lt 64 n)]

theorem log2_pow2_eq_log2 (n : Nat) : log2_pow2 n = Nat.log2 n := by
  induction n using Nat.strongRecOn with
  | ind n ih =>
    rw [log2_pow2]
    unfold Nat.log2
    have hs : n >>> 1 = n / 2 := by rw [Nat.shiftRight_eq_div_pow, pow_one]
    rw [hs]
    by_cases h : n / 2 = 0
    · rw [if_pos h, if_neg (by omega)]
    · rw [if_neg h, if_pos (by omega), ih (n / 2) (by omega)]

theorem log2_pow2_two_pow (k : Nat) : log2_pow2 (2 ^ k) = k := by
  rw [log2_pow2_eq_log2]
  have hne : (2 : Nat) ^ k ≠ 0 := (Nat.pos_pow_of_pos k (by omega)).ne'
  have h1 : k ≤ Nat.log2 (2 ^ k) := (Nat.le_log2 hne).2 (Nat.le_refl _)
  have hlt : (2 : Nat) ^ k < 2 ^ (k + 1) := by
    have := Nat.pos_pow_of_pos k (show 0 < 2 by omega)
    rw [Nat.pow_succ]
    omega
  have h2 : Nat.log2 (2 ^ k) < k + 1 := (Nat.log2_lt hne).2 hlt
  omega

theorem log2_pow2_le (n : Nat) (h : n < 2 ^ 64) : log2_pow2 n ≤ 63 := by
  rcases Nat.eq_zero_or_pos n with h0 | h0
  · subst h0
    rw [log2_pow2]
    norm_num
  · rw [log2_pow2_eq_log2]
    have := (Nat.log2_lt (by omega)).2 h
    omega

theorem reverse_bits_limited_eq_rev (n v : Nat) (h : log2_pow2 n ≤ 64) :
    reverse_bits_limited n v = rev (log2_pow2 n) v := by
  rw [reverse_bits_limited, reverse_bits_eq_rev, rev_shift _ _ _ h]

theorem rev_one (k : Nat) : rev (k + 1) 1 = 2 ^ k := by
  simp [rev, rev_zero]

theorem rbl_lt (w v : Nat) (hw : w ≤ 64) : reverse_bits_limited (2 ^ w) v < 2 ^ w := by
  have hl : log2_pow2 (2 ^ w) = w := log2_pow2_two_pow w
  rw [reverse_bits_limited_eq_rev _ _ (by omega), hl]
  exact rev_lt w v

theorem rbl_invol (w v : Nat) (hw : w ≤ 64) (hv : v < 2 ^ w) :
    reverse_bits_limited (2 ^ w) (reverse_bits_limited (2 ^ w) v) = v := by
  have hl : log2_pow2 (2 ^ w) = w := log2_pow2_two_pow w
  have h64 : log2_pow2 (2 ^ w) ≤ 64 := by omega
  rw [reverse_bits_limited_eq_rev _ _ h64, reverse_bits_limited_eq_rev _ _ h64, hl,
    rev_rev, Nat.mod_eq_of_lt hv]

theorem testBit_true_of_le_of_lt {n j : Nat} (h1 : 2 ^ j ≤ n) (h2 : n < 2 ^ (j + 1)) :
    n.testBit j = true := by
  rw [Nat.testBit_to_div_mod]
  have hp : 0 < 2 ^ j := Nat.pos_pow_of_pos j (by omega)
  have e : 2 ^ (j + 1) = 2 ^ j * 2 := by rw [Nat.pow_succ]
  have hd : n / 2 ^ j = 1 := by
    have hle : 1 ≤ n / 2 ^ j := (Nat.one_le_div_iff hp).2 h1
    have hlt : n / 2 ^ j < 2 := by
      rw [Nat.div_lt_iff_lt_mul hp]
      omega
    omega
  rw [hd]
  decide

theorem land_pred_eq_zero_iff (n : Nat) (hn : 0 < n) :
    n &&& (n - 1) = 0 ↔ ∃ k, n = 2 ^ k := by
  constructor
  · intro h
    by_contra hc
    push_neg at hc
    have hne : n ≠ 0 := by omega
    have h1 : 2 ^ Nat.log2 n ≤ n := Nat.log2_self_le hne
    have h2 : n < 2 ^ (Nat.log2 n + 1) := (Nat.log2_lt hne).1 (Nat.lt_succ_self _)
    have h3 : 2 ^ Nat.log2 n ≤ n - 1 := by
      have := hc (Nat.log2 n)
      omega
    have h4 : n - 1 < 2 ^ (Nat.log2 n + 1) := by omega
    have hb : (n &&& (n - 1)).testBit (Nat.log2 n) = true := by
      rw [Nat.testBit_and, testBit_true_of_le_of_lt h1 h2, testBit_true_of_le_of_lt h3 h4]
      rfl
    rw [h, Nat.zero_testBit] at hb
    exact Bool.false_ne_true hb
  · rintro ⟨k, rfl⟩
    apply Nat.eq_of_testBit_eq
    intro i
    rw [Nat.testBit_and, Nat.testBit_two_pow, Nat.testBit_two_pow_sub_one, Nat.zero_testBit]
    by_cases hik : k = i
    · subst hik
      simp
    · simp [hik]

/-- Claim C1: for every `w ∈ [0, 63]` and every `v ∈ [0, 2^w)`, with `n = 1 <<< w = 2^w`,
`reverse_bits_limited n (reverse_bits_limited n v) = v`: the limited bit reversal is an
involution on its domain. -/
theorem claim_C1_limited_involution (w v : Nat) (hw : w ≤ 63) (hv : v < 2 ^ w) :
    reverse_bits_limited (2 ^ w) (reverse_bits_limited (2 ^ w) v) = v :=
  rbl_invol w v (by omega) hv

theorem claim_C1_witness :
    reverse_bits_limited (2 ^ 3) (reverse_bits_limited (2 ^ 3) 5) = 5 :=
  claim_C1_limited_involution 3 5 (by decide) (by decide)

/-- Claim C2: for every `w ∈ [0, 63]`, with `n = 2^w`, the map
`v ↦ reverse_bits_limited n v` restricted to `{0, …, n−1}` is a bijection of that set
onto itself. -/
theorem claim_C2_bijection (w : Nat) (hw : w ≤ 63) :
    Set.BijOn (fun v => reverse_bits_limited (2 ^ w) v)
      (Set.Iio (2 ^ w)) (Set.Iio (2 ^ w)) := by
  have hw' : w ≤ 64 := by omega
  have hmaps : Set.MapsTo (fun v => reverse_bits_limited (2 ^ w) v)
      (Set.Iio (2 ^ w)) (Set.Iio (2 ^ w)) := by
    intro v hv
    simp only [Set.mem_Iio] at hv ⊢
    exact rbl_lt w v hw'
  have hinv : Set.InvOn (fun v => reverse_bits_limited (2 ^ w) v)
      (fun v => reverse_bits_limited (2 ^ w) v) (Set.Iio (2 ^ w)) (Set.Iio (2 ^ w)) := by
    constructor
    · intro v hv
      simp only [Set.mem_Iio] at hv
      exact rbl_invol w v hw' hv
    · intro v hv
      simp only [Set.mem_Iio] at hv
      exact rbl_invol w v hw' hv
  exact hinv.bijOn hmaps hmaps

theorem claim_C2_witness :
    Set.BijOn (fun v => reverse_bits_limited (2 ^ 3) v)
      (Set.Iio (2 ^ 3)) (Set.Iio (2 ^ 3)) :=
  claim_C2_bijection 3 (by decide)

/-- Claim C3: for every `w ∈ [0, 63]` and every `v ∈ [0, 2^w)`, with `n = 2^w`,
`reverse_bits_limited n v < n`: the result stays in `[0, n)`. -/
theorem claim_C3_range_preservation (w v : Nat) (hw : w ≤ 63) (hv : v < 2 ^ w) :
    reverse_bits_limited (2 ^ w) v < 2 ^ w :=
  rbl_lt w v (by omega)

theorem claim_C3_witness : reverse_bits_limited (2 ^ 3) 6 < 2 ^ 3 :=
  claim_C3_range_preservation 3 6 (by decide) (by decide)

/-- Claim C4: for every 64-bit unsigned `x`,
`reverse_bits (reverse_bits x) = x`: full 64-bit bit reversal is an involution. -/
theorem claim_C4_involution (x : Nat) (hx : x < 2 ^ 64) :
    reverse_bits (reverse_bits x) = x := by
  rw [reverse_bits_eq_rev, reverse_bits_eq_rev, rev_rev, Nat.mod_eq_of_lt hx]

theorem claim_C4_witness : reverse_bits (reverse_bits 3735928559) = 3735928559 :=
  claim_C4_involution 3735928559 (by decide)

/-- Claim C5: for every 64-bit unsigned `n` and every `i ∈ [0, 63]`, bit `i` of
`reverse_bits n` equals bit `63 − i` of `n`; in particular `reverse_bits 1 = 2^63`
and `reverse_bits 0 = 0`. -/
theorem claim_C5_bit_spec (n i : Nat) (hn : n < 2 ^ 64) (hi : i < 64) :
    (reverse_bits n).testBit i = n.testBit (63 - i) ∧
    reverse_bits 1 = 2 ^ 63 ∧ reverse_bits 0 = 0 := by
  refine ⟨?_, ?_, ?_⟩
  · rw [reverse_bits_eq_rev, rev_testBit 64 n i hi]
  · have h : rev 64 1 = 2 ^ 63 := rev_one 63
    rw [reverse_bits_eq_rev, h]
  · rw [reverse_bits_eq_rev, rev_zero]

theorem claim_C5_witness :
    (reverse_bits 6).testBit 1 = (6 : Nat).testBit (63 - 1) ∧
    reverse_bits 1 = 2 ^ 63 ∧ reverse_bits 0 = 0 :=
  claim_C5_bit_spec 6 1 (by decide) (by decide)

/-- Claim C6: for every `n ≥ 1`, `log2_pow2 n` is the largest `k` with `2^k ≤ n`
(the 0-based index of the highest set bit); in particular `log2_pow2 (2^k) = k`
for every `k ∈ [0, 63]`, and `log2_pow2 1 = 0`. -/
theorem claim_C6_log2_spec (n : Nat) (hn : 1 ≤ n) :
    (2 ^ log2_pow2 n ≤ n ∧ ∀ k, 2 ^ k ≤ n → k ≤ log2_pow2 n) ∧
    (∀ k, k ≤ 63 → log2_pow2 (2 ^ k) = k) ∧ log2_pow2 1 = 0 := by
  refine ⟨⟨?_, ?_⟩, fun k _ => log2_pow2_two_pow k, log2_pow2_two_pow 0⟩
  · rw [log2_pow2_eq_log2]
    exact Nat.log2_self_le (by omega)
  · intro k hk
    rw [log2_pow2_eq_log2]
    exact (Nat.le_log2 (by omega)).2 hk

theorem claim_C6_witness :
    (2 ^ log2_pow2 1024 ≤ 1024 ∧ ∀ k, 2 ^ k ≤ 1024 → k ≤ log2_pow2 1024) ∧
    (∀ k, k ≤ 63 → log2_pow2 (2 ^ k) = k) ∧ log2_pow2 1 = 0 :=
  claim_C6_log2_spec 1024 (by decide)

/-- Claim C7: `is_power_of_two n` returns true iff `n & (n − 1) = 0` in uint64
arithmetic: true for `n = 0`, true for every `n = 2^k` with `k ∈ [0, 63]`, and
false for every other positive 64-bit value. -/
theorem claim_C7_power_of_two_spec (n : Nat) (hn : n < 2 ^ 64) :
    is_power_of_two n = true ↔ (n = 0 ∨ ∃ k, k < 64 ∧ n = 2 ^ k) := by
  rcases Nat.eq_zero_or_pos n with h0 | h0
  · subst h0
    simp [is_power_of_two]
  · have hsub : (n + 2 ^ 64 - 1) % 2 ^ 64 = n - 1 := by
      have e : n + 2 ^ 64 - 1 = (n - 1) + 2 ^ 64 := by omega
      rw [e, Nat.add_mod_right, Nat.mod_eq_of_lt (by omega)]
    simp only [is_power_of_two, hsub, beq_iff_eq]
    rw [land_pred_eq_zero_iff n h0]
    constructor
    · rintro ⟨k, rfl⟩
      refine Or.inr ⟨k, ?_, rfl⟩
      by_contra hk
      push_neg at hk
      have : 2 ^ 64 ≤ 2 ^ k := Nat.pow_le_pow_right (by omega) hk
      omega
    · rintro (rfl | ⟨k, _, rfl⟩)
      · exact absurd h0 (lt_irrefl 0)
      · exact ⟨k, rfl⟩

theorem claim_C7_witness :
    is_power_of_two 1024 = true ↔ (1024 = 0 ∨ ∃ k, k < 64 ∧ 1024 = 2 ^ k) :=
  claim_C7_power_of_two_spec 1024 (by decide)

/-- Claim C8: for every power of two `n = 2^k` with `k ∈ [0, 63]`,
`reverse_bits_limited n 0 = 0` and `reverse_bits_limited n (n − 1) = n − 1`;
in the `n = 1` case these coincide and `reverse_bits_limited 1 0 = 0`. -/
theorem claim_C8_endpoints (k : Nat) (hk : k ≤ 63) :
    reverse_bits_limited (2 ^ k) 0 = 0 ∧
    reverse_bits_limited (2 ^ k) (2 ^ k - 1) = 2 ^ k - 1 ∧
    reverse_bits_limited 1 0 = 0 := by
  have h64 : log2_pow2 (2 ^ k) ≤ 64 := by rw [log2_pow2_two_pow]; omega
  have h10 : log2_pow2 1 = 0 := log2_pow2_two_pow 0
  refine ⟨?_, ?_, ?_⟩
  · rw [reverse_bits_limited_eq_rev _ _ h64, rev_zero]
  · rw [reverse_bits_limited_eq_rev _ _ h64, log2_pow2_two_pow, rev_all_ones]
  · rw [reverse_bits_limited_eq_rev 1 0 (by omega), h10, rev_zero]

theorem claim_C8_witness :
    reverse_bits_limited (2 ^ 3) 0 = 0 ∧
    reverse_bits_limited (2 ^ 3) (2 ^ 3 - 1) = 2 ^ 3 - 1 ∧
    reverse_bits_limited 1 0 = 0 :=
  claim_C8_endpoints 3 (by decide)

/-- Claim C9: for every `n ≥ 2` (not necessarily a power of two) and every 64-bit
`value` (no precondition `value < n`), `reverse_bits_limited n value < 2 ^ log2_pow2 n`:
the result is confined to the `log2_pow2 n`-bit window. -/
theorem claim_C9_window_confinement (n value : Nat) (hn2 : 2 ≤ n) (hn : n < 2 ^ 64)
    (hv : value < 2 ^ 64) :
    reverse_bits_limited n value < 2 ^ log2_pow2 n := by
  have hw : log2_pow2 n ≤ 63 := log2_pow2_le n hn
  rw [reverse_bits_limited_eq_rev _ _ (by omega)]
  exact rev_lt _ _

theorem claim_C9_witness : reverse_bits_limited 10 12345 < 2 ^ log2_pow2 10 :=
  claim_C9_window_confinement 10 12345 (by decide) (by decide) (by decide)

/-- Claim C10: for every `n ≥ 2` and every pair of 64-bit values `v1`, `v2` that agree
on their low `log2_pow2 n` bits, `reverse_bits_limited n v1 = reverse_bits_limited n v2`:
the high bits of `value` never influence the result. -/
theorem claim_C10_noninterference (n v1 v2 : Nat) (hn2 : 2 ≤ n) (hn : n < 2 ^ 64)
    (h1 : v1 < 2 ^ 64) (h2 : v2 < 2 ^ 64)
    (hlow : v1 % 2 ^ log2_pow2 n = v2 % 2 ^ log2_pow2 n) :
    reverse_bits_limited n v1 = reverse_bits_limited n v2 := by
  have hw : log2_pow2 n ≤ 63 := log2_pow2_le n hn
  rw [reverse_bits_limited_eq_rev _ _ (by omega), reverse_bits_limited_eq_rev _ _ (by omega),
    ← rev_mod _ v1, ← rev_mod _ v2, hlow]

theorem claim_C10_witness : reverse_bits_limited 8 5 = reverse_bits_limited 8 13 :=
  claim_C10_noninterference 8 5 13 (by decide) (by decide) (by decide) (by decide)
    (by rw [show (8 : Nat) = 2 ^ 3 from rfl, log2_pow2_two_pow]; decide)

end Permutations
